import Mathlib

/-!
Verification of the dependency-graph filtering and record-reduction pipeline of
`rust-license-tool` (`src/main.rs`), as a shallow embedding in Lean.

Package identifiers are modelled as natural numbers.  The resolved dependency
graph (`HashMap<PackageId, Node>` in the source) is modelled as a total
function `Nat → List NodeDep` giving each node its outgoing edges, together
with an explicit key list for the workspace (root-less) case; the provider
contract guarantees the map is complete, so a total function is faithful.
The unbounded recursion of `filter_node_deps_rec` (which terminates because a
resolved graph is a DAG) is modelled with an explicit recursion-depth budget
`fuel`; theorems assume the budget dominates every normal-edge path length,
which is exactly the DAG guarantee.
-/

inductive DependencyKind where
  | normal
  | build
  | development
  | unknown
deriving DecidableEq

structure DepKindInfo where
  kind : DependencyKind
deriving DecidableEq

structure NodeDep where
  pkg : Nat
  dep_kinds : List DepKindInfo
deriving DecidableEq

/-- `is_normal_dep` from the source: an edge is shipped iff at least one of its
kind tags is `Normal`. -/
def is_normal_dep (kinds : List DepKindInfo) : Bool :=
  kinds.any (fun dep => dep.kind == DependencyKind.normal)

/-- `filter_node_deps_rec` from the source: walk the outgoing edges of `node`;
for every edge whose kinds include `Normal`, insert the target and recurse
into it.  `fuel` bounds the recursion depth. -/
def filter_node_deps_rec (deps : Nat → List NodeDep) :
    Nat → Nat → Finset Nat → Finset Nat
  | 0, _, packages => packages
  | fuel + 1, node, packages =>
    (deps node).foldl
      (fun acc d =>
        if is_normal_dep d.dep_kinds then
          filter_node_deps_rec deps fuel d.pkg (insert d.pkg acc)
        else acc)
      packages

/-- `filter_deps_rec` from the source: with an explicit root, walk from it;
with no root (the workspace case) iterate over every node key of the graph,
threading one accumulator. -/
def filter_deps_rec (deps : Nat → List NodeDep) (keys : List Nat) (fuel : Nat) :
    Option Nat → Finset Nat
  | some node => filter_node_deps_rec deps fuel node ∅
  | none => keys.foldl (fun acc pkg => filter_node_deps_rec deps fuel pkg acc) ∅

/-- The graph filter run from a list of roots, threading one accumulator; the
`none` branch of `filter_deps_rec` is exactly this applied to the key list. -/
def filter_roots (deps : Nat → List NodeDep) (fuel : Nat) (roots : List Nat) :
    Finset Nat :=
  roots.foldl (fun acc pkg => filter_node_deps_rec deps fuel pkg acc) ∅

/-- Paths in the dependency graph all of whose edges carry the `Normal` kind
tag, indexed by their length. -/
inductive NPath (deps : Nat → List NodeDep) : Nat → Nat → Nat → Prop where
  | refl (a : Nat) : NPath deps a a 0
  | step {a b k : Nat} (d : NodeDep) (hd : d ∈ deps a)
      (hn : is_normal_dep d.dep_kinds = true) (hp : NPath deps d.pkg b k) :
      NPath deps a b (k + 1)

/-- The loop body of `filter_node_deps_rec`, named for the proofs. -/
def fnd_step (deps : Nat → List NodeDep) (fuel : Nat) (acc : Finset Nat)
    (d : NodeDep) : Finset Nat :=
  if is_normal_dep d.dep_kinds then
    filter_node_deps_rec deps fuel d.pkg (insert d.pkg acc)
  else acc

theorem fnd_succ (deps : Nat → List NodeDep) (fuel node : Nat)
    (packages : Finset Nat) :
    filter_node_deps_rec deps (fuel + 1) node packages =
      (deps node).foldl (fnd_step deps fuel) packages := by
  rfl

theorem foldl_subset_of_subset {f : Finset Nat → NodeDep → Finset Nat}
    (hf : ∀ a d, a ⊆ f a d) :
    ∀ (l : List NodeDep) (a : Finset Nat), a ⊆ l.foldl f a := by
  intro l
  induction l with
  | nil => intro a; simp
  | cons d l ih =>
    intro a
    simp only [List.foldl_cons]
    exact (hf a d).trans (ih (f a d))

theorem foldl_union_comm {f : Finset Nat → NodeDep → Finset Nat}
    (hf : ∀ a b d, f (a ∪ b) d = a ∪ f b d) :
    ∀ (l : List NodeDep) (a b : Finset Nat), l.foldl f (a ∪ b) = a ∪ l.foldl f b := by
  intro l
  induction l with
  | nil => intro a b; simp
  | cons d l ih =>
    intro a b
    simp only [List.foldl_cons]
    rw [hf a b d, ih]

theorem fnd_union (deps : Nat → List NodeDep) :
    ∀ (fuel node : Nat) (a b : Finset Nat),
      filter_node_deps_rec deps fuel node (a ∪ b) =
        a ∪ filter_node_deps_rec deps fuel node b := by
  intro fuel
  induction fuel with
  | zero => intro node a b; rfl
  | succ fuel ih =>
    intro node a b
    rw [fnd_succ, fnd_succ]
    apply foldl_union_comm
    intro a' b' d
    unfold fnd_step
    by_cases hn : is_normal_dep d.dep_kinds
    · rw [if_pos hn, if_pos hn,
        show insert d.pkg (a' ∪ b') = a' ∪ insert d.pkg b' from
          (Finset.union_insert d.pkg a' b').symm, ih]
    · rw [if_neg hn, if_neg hn]

theorem fnd_acc (deps : Nat → List NodeDep) (fuel node : Nat) (acc : Finset Nat) :
    filter_node_deps_rec deps fuel node acc =
      acc ∪ filter_node_deps_rec deps fuel node ∅ := by
  have h := fnd_union deps fuel node acc ∅
  rwa [Finset.union_empty] at h

theorem fnd_mono (deps : Nat → List NodeDep) :
    ∀ (fuel node : Nat) (acc : Finset Nat),
      acc ⊆ filter_node_deps_rec deps fuel node acc := by
  intro fuel
  induction fuel with
  | zero => intro node acc; exact fun x hx => hx
  | succ fuel ih =>
    intro node acc
    rw [fnd_succ]
    apply foldl_subset_of_subset
    intro a d
    unfold fnd_step
    by_cases hn : is_normal_dep d.dep_kinds
    · rw [if_pos hn]
      exact (Finset.subset_insert d.pkg a).trans (ih d.pkg (insert d.pkg a))
    · rw [if_neg hn]

theorem fnd_step_mono (deps : Nat → List NodeDep) (fuel : Nat)
    (a : Finset Nat) (d : NodeDep) : a ⊆ fnd_step deps fuel a d := by
  unfold fnd_step
  by_cases hn : is_normal_dep d.dep_kinds
  · rw [if_pos hn]
    exact (Finset.subset_insert d.pkg a).trans (fnd_mono deps fuel d.pkg _)
  · rw [if_neg hn]

theorem foldl_mem_of_mem {f : Finset Nat → NodeDep → Finset Nat} {x : Nat}
    (hmono : ∀ a d, a ⊆ f a d) {d : NodeDep} (hx : ∀ a, x ∈ f a d) :
    ∀ (l : List NodeDep) (acc : Finset Nat), d ∈ l → x ∈ l.foldl f acc := by
  intro l
  induction l with
  | nil => intro acc h; cases h
  | cons d0 l ihl =>
    intro acc hd
    simp only [List.foldl_cons]
    rcases List.mem_cons.mp hd with h | h
    · subst h
      exact foldl_subset_of_subset hmono l (f acc d) (hx acc)
    · exact ihl (f acc d0) h

theorem fnd_sound (deps : Nat → List NodeDep) :
    ∀ (fuel node : Nat) (acc : Finset Nat) (x : Nat),
      x ∈ filter_node_deps_rec deps fuel node acc →
      x ∈ acc ∨ ∃ k, 1 ≤ k ∧ k ≤ fuel ∧ NPath deps node x k := by
  intro fuel
  induction fuel with
  | zero => intro node acc x hx; exact Or.inl hx
  | succ fuel ih =>
    intro node acc x hx
    rw [fnd_succ] at hx
    have main : ∀ (l : List NodeDep), (∀ d ∈ l, d ∈ deps node) →
        ∀ (acc : Finset Nat), x ∈ l.foldl (fnd_step deps fuel) acc →
        x ∈ acc ∨ ∃ k, 1 ≤ k ∧ k ≤ fuel + 1 ∧ NPath deps node x k := by
      intro l
      induction l with
      | nil => intro _ acc hx; exact Or.inl hx
      | cons d l ihl =>
        intro hsub acc hx
        simp only [List.foldl_cons] at hx
        rcases ihl (fun d' hd' => hsub d' (List.mem_cons_of_mem _ hd')) _ hx with
          h | h
        · unfold fnd_step at h
          by_cases hn : is_normal_dep d.dep_kinds
          · rw [if_pos hn] at h
            rcases ih d.pkg (insert d.pkg acc) x h with h2 | ⟨k, hk1, hk2, hp⟩
            · rcases Finset.mem_insert.mp h2 with h3 | h3
              · subst h3
                exact Or.inr ⟨1, le_refl 1, by omega,
                  NPath.step d (hsub d (List.mem_cons_self d l)) hn (NPath.refl _)⟩
              · exact Or.inl h3
            · exact Or.inr ⟨k + 1, by omega, by omega,
                NPath.step d (hsub d (List.mem_cons_self d l)) hn hp⟩
          · rw [if_neg hn] at h
            exact Or.inl h
        · exact Or.inr h
    exact main (deps node) (fun d hd => hd) acc hx

theorem fnd_complete (deps : Nat → List NodeDep) :
    ∀ (fuel k node x : Nat), NPath deps node x k → 1 ≤ k → k ≤ fuel →
      ∀ acc, x ∈ filter_node_deps_rec deps fuel node acc := by
  intro fuel
  induction fuel with
  | zero => intro k node x _ h1 h0; omega
  | succ fuel ih =>
    intro k node x hp h1 hk acc
    cases hp with
    | refl => omega
    | step d hd hn hp' =>
      rw [fnd_succ]
      have hx : ∀ a, x ∈ fnd_step deps fuel a d := by
        intro a
        unfold fnd_step
        rw [if_pos hn]
        cases hp' with
        | refl => exact fnd_mono deps fuel d.pkg _ (Finset.mem_insert_self _ _)
        | step d' hd' hn' hp'' =>
          exact ih _ d.pkg x (NPath.step d' hd' hn' hp'') (by omega) (by omega) _
      exact foldl_mem_of_mem (fnd_step_mono deps fuel) hx (deps node) acc hd

theorem roots_foldl_mem (deps : Nat → List NodeDep) (fuel : Nat) :
    ∀ (roots : List Nat) (acc : Finset Nat) (x : Nat),
      x ∈ roots.foldl (fun acc pkg => filter_node_deps_rec deps fuel pkg acc) acc ↔
        x ∈ acc ∨ ∃ r ∈ roots, x ∈ filter_node_deps_rec deps fuel r ∅ := by
  intro roots
  induction roots with
  | nil => intro acc x; simp
  | cons r roots ihr =>
    intro acc x
    simp only [List.foldl_cons]
    rw [ihr, fnd_acc deps fuel r acc]
    simp only [Finset.mem_union, List.mem_cons]
    constructor
    · rintro ((h | h) | ⟨r', hr', h⟩)
      · exact Or.inl h
      · exact Or.inr ⟨r, Or.inl rfl, h⟩
      · exact Or.inr ⟨r', Or.inr hr', h⟩
    · rintro (h | ⟨r', (hr' | hr'), h⟩)
      · exact Or.inl (Or.inl h)
      · subst hr'; exact Or.inl (Or.inr h)
      · exact Or.inr ⟨r', hr', h⟩

theorem filter_roots_mem (deps : Nat → List NodeDep) (fuel : Nat)
    (roots : List Nat) (x : Nat) :
    x ∈ filter_roots deps fuel roots ↔
      ∃ r ∈ roots, x ∈ filter_node_deps_rec deps fuel r ∅ := by
  rw [filter_roots, roots_foldl_mem]
  simp

/-- C1: for every resolved dependency graph (modelled with a recursion budget
dominating all normal-path lengths, i.e. the DAG guarantee) and set of roots,
the graph filter's output contains a package iff it is reachable from some
root via a nonempty path whose every edge carries the `Normal` kind tag; and
an edge counts as normal exactly when at least one of its kind tags is
`Normal`. -/
theorem spec_c1_graph_filter_normal_paths (deps : Nat → List NodeDep)
    (roots : List Nat) (fuel : Nat) (x : Nat)
    (hdag : ∀ a b k, NPath deps a b k → k ≤ fuel) :
    (x ∈ filter_roots deps fuel roots ↔
      ∃ r ∈ roots, ∃ k, 1 ≤ k ∧ NPath deps r x k) ∧
    (∀ kinds : List DepKindInfo,
      is_normal_dep kinds = true ↔ ∃ i ∈ kinds, i.kind = DependencyKind.normal) := by
  constructor
  · rw [filter_roots_mem]
    constructor
    · rintro ⟨r, hr, hx⟩
      rcases fnd_sound deps fuel r ∅ x hx with h | ⟨k, h1, _, hp⟩
      · exact absurd h (Finset.not_mem_empty x)
      · exact ⟨r, hr, k, h1, hp⟩
    · rintro ⟨r, hr, k, h1, hp⟩
      exact ⟨r, hr, fnd_complete deps fuel k r x hp h1 (hdag _ _ _ hp) ∅⟩
  · intro kinds
    simp [is_normal_dep, List.any_eq_true]

/-- A one-edge graph used as the concrete witness input: node 0 has a single
outgoing `Normal` edge to node 1. -/
def depsOne : Nat → List NodeDep :=
  fun n => if n = 0 then [⟨1, [⟨DependencyKind.normal⟩]⟩] else []

theorem depsOne_bound : ∀ a b k, NPath depsOne a b k → k ≤ 1 := by
  intro a b k h
  cases h with
  | refl => omega
  | step d hd hn hp =>
    by_cases ha : a = 0
    · subst ha
      have hd' : d = ⟨1, [⟨DependencyKind.normal⟩]⟩ := by
        simpa [depsOne] using hd
      subst hd'
      cases hp with
      | refl => omega
      | step d' hd' hn' hp' =>
        simp [depsOne] at hd'
    · simp [depsOne, ha] at hd

/-- Witness for C1: the one-edge graph satisfies the DAG budget hypothesis
with fuel 1, the theorem's characterization holds there, and package 1 is
indeed in the filter output. -/
theorem spec_c1_witness :
    (∀ a b k, NPath depsOne a b k → k ≤ 1) ∧
    ((1 ∈ filter_roots depsOne 1 [0]) ↔
      ∃ r ∈ [0], ∃ k, 1 ≤ k ∧ NPath depsOne r 1 k) ∧
    1 ∈ filter_roots depsOne 1 [0] := by
  refine ⟨depsOne_bound,
    (spec_c1_graph_filter_normal_paths depsOne [0] 1 1 depsOne_bound).1, ?_⟩
  decide

/-- C3: with no explicit root, `filter_deps_rec` is the union of the
edge-filtering traversals started independently from each node key of the
resolve's node table, equals `filter_roots` over exactly that key list (so no
traversal starts elsewhere), and with an explicit root it traverses from that
root alone. -/
theorem spec_c3_workspace_union (deps : Nat → List NodeDep) (keys : List Nat)
    (fuel : Nat) :
    (∀ x, x ∈ filter_deps_rec deps keys fuel none ↔
      ∃ r ∈ keys, x ∈ filter_node_deps_rec deps fuel r ∅) ∧
    (filter_deps_rec deps keys fuel none = filter_roots deps fuel keys) ∧
    (∀ node, filter_deps_rec deps keys fuel (some node) =
      filter_node_deps_rec deps fuel node ∅) := by
  refine ⟨?_, rfl, fun _ => rfl⟩
  intro x
  rw [show filter_deps_rec deps keys fuel none = filter_roots deps fuel keys from rfl]
  exact filter_roots_mem deps fuel keys x

/-!
String helpers mirroring the `str` operations used by the source, modelled on
the character lists underlying `String`.
-/

/-- Rust `str::strip_prefix`-style removal of a leading pattern, as an option. -/
def drop_pre (pat s : List Char) : Option (List Char) :=
  if pat <+: s then some (s.drop pat.length) else none

/-- Rust `str::strip_suffix`-style removal of a trailing pattern, as an option. -/
def drop_sfx (pat s : List Char) : Option (List Char) :=
  if pat <:+ s then some (s.take (s.length - pat.length)) else none

/-- `strip_suffix` from the source: `s.strip_suffix(suffix).unwrap_or(s)`. -/
def strip_suffix (s suffix : String) : String :=
  if suffix.data <:+ s.data then
    ⟨s.data.take (s.data.length - suffix.data.length)⟩
  else s

/-- `strip_git` from the source: strip a trailing `".git"`, then a trailing
`"/"`. -/
def strip_git (s : String) : String :=
  strip_suffix (strip_suffix s ".git") "/"

/-- C9: origin canonicalization returns an already-canonical URL (no trailing
`".git"`, no trailing `"/"`) unchanged. -/
theorem spec_c9_strip_git_canonical (s : String)
    (h1 : ¬ (".git".data <:+ s.data)) (h2 : ¬ ("/".data <:+ s.data)) :
    strip_git s = s := by
  unfold strip_git strip_suffix
  rw [if_neg h1, if_neg h2]

/-- Witness for C9 at a concrete canonical URL. -/
theorem spec_c9_witness :
    ¬ (".git".data <:+ "https://github.com/datadog/x".data) ∧
    ¬ ("/".data <:+ "https://github.com/datadog/x".data) ∧
    strip_git "https://github.com/datadog/x" = "https://github.com/datadog/x" :=
  ⟨by decide, by decide, spec_c9_strip_git_canonical _ (by decide) (by decide)⟩

/-!
The data model: output records, overrides, and the package fields the core
pipeline reads and writes.  `metadata_copyright` models the `COPYRIGHT_KEY`
slot of the package metadata side-table.
-/

structure Record where
  component : String
  origin : String
  license : String
  copyright : String
deriving DecidableEq

structure Package where
  id : Nat
  name : String
  version : String
  license : Option String
  repository : Option String
  homepage : Option String
  source : Option String
  metadata_copyright : Option String
deriving DecidableEq

structure Override where
  license : Option String
  origin : Option String
deriving DecidableEq

abbrev Overrides := List (String × Override)

/-- `HashMap::get` on the override table. -/
def ov_get (overrides : Overrides) (key : String) : Option Override :=
  (overrides.find? (fun e => e.1 == key)).map (fun e => e.2)

/-- `Override::fixup` from the source: an override's license and origin, when
present, replace the package's declared license and repository. -/
def Override.fixup (o : Override) (package : Package) : Package :=
  { package with
    license := o.license.or package.license
    repository := o.origin.or package.repository }

/-- `lookup_deps` from the source: map each filtered id to its package entry
(`none` models the `expect` panic on a missing id), then keep only packages
with a source, excluding local/workspace packages. -/
def lookup_deps (package_ids : List Nat) (packages : List Package) :
    Option (List Package) :=
  (package_ids.mapM (fun i => packages.find? (fun p => p.id == i))).map
    (fun found => found.filter (fun package => package.source.isSome))

/-- The override-application step at the top of `rewrite_package`: look up
`"{name}-{version}"`, falling back to the bare name, and apply any hit. -/
def apply_override (overrides : Overrides) (package : Package) : Package :=
  match (ov_get overrides (package.name ++ "-" ++ package.version)).or
      (ov_get overrides package.name) with
  | some opts => opts.fixup package
  | none => package

/-- The repository fixup of `rewrite_package` for a package with a source:
canonicalize an existing repository URL; else derive one from a `git+` source
(dropping any query string); else fall back to the homepage; else fail. -/
def fix_repository (package : Package) (source : String) : Option Package :=
  match package.repository with
  | some repo => some { package with repository := some (strip_git repo) }
  | none =>
    match drop_pre "git+".data source.data with
    | some git =>
      some { package with
        repository := some (strip_git ⟨git.takeWhile (fun c => c ≠ '?')⟩) }
    | none =>
      match package.homepage with
      | some homepage => some { package with repository := some homepage }
      | none => none

/-- The body of `rewrite_package` after the override lookup; `name` is the
`"{name}-{version}"` string computed from the incoming package.  Returns the
rewritten package and the diagnostic reported for it, if any. -/
def rewrite_package_body (name : String) (package : Package) :
    Package × Option String :=
  match package.source with
  | none => (package, none)
  | some source =>
    match fix_repository package source with
    | none => (package, some ("Package " ++ name ++ " is missing a repository"))
    | some fixed =>
      if fixed.license = none then
        (fixed, some ("Package " ++ name ++ " is missing a license"))
      else (fixed, none)

/-- `rewrite_package` from the source. -/
def rewrite_package (overrides : Overrides) (package : Package) :
    Package × Option String :=
  rewrite_package_body (package.name ++ "-" ++ package.version)
    (apply_override overrides package)

/-- `rewrite_packages` from the source: fold over all packages with a
non-short-circuiting error flag (`errors | rewrite_package(..)`), collecting
the rewritten packages and every diagnostic. -/
def rewrite_packages (overrides : Overrides) (packages : List Package) :
    List Package × List String × Bool :=
  packages.foldl
    (fun st package =>
      (st.1 ++ [(rewrite_package overrides package).1],
       st.2.1 ++ (rewrite_package overrides package).2.toList,
       st.2.2 || (rewrite_package overrides package).2.isSome))
    ([], [], false)

theorem rewrite_packages_fold (overrides : Overrides) :
    ∀ (packages : List Package) (acc : List Package × List String × Bool),
      packages.foldl
        (fun st package =>
          (st.1 ++ [(rewrite_package overrides package).1],
           st.2.1 ++ (rewrite_package overrides package).2.toList,
           st.2.2 || (rewrite_package overrides package).2.isSome)) acc =
      (acc.1 ++ packages.map (fun p => (rewrite_package overrides p).1),
       acc.2.1 ++ packages.filterMap (fun p => (rewrite_package overrides p).2),
       acc.2.2 || packages.any (fun p => (rewrite_package overrides p).2.isSome)) := by
  intro packages
  induction packages with
  | nil => intro acc; simp
  | cons p ps ih =>
    intro acc
    simp only [List.foldl_cons, ih, List.map_cons, List.any_cons]
    rcases h : (rewrite_package overrides p).2 with _ | m <;>
      simp [h, List.filterMap_cons, List.append_assoc, Bool.or_assoc]

/-- C7: normalization processes every package (no short-circuit), collects one
name-and-version diagnostic per failing package, and the aggregate error flag
is clear iff no package failed; every diagnostic names the package as
`"{name}-{version}"` with a missing-repository or missing-license message. -/
theorem spec_c7_normalization_batch (overrides : Overrides)
    (packages : List Package) :
    ((rewrite_packages overrides packages).1 =
      packages.map (fun p => (rewrite_package overrides p).1)) ∧
    ((rewrite_packages overrides packages).2.1 =
      packages.filterMap (fun p => (rewrite_package overrides p).2)) ∧
    ((rewrite_packages overrides packages).2.2 = false ↔
      ∀ p ∈ packages, (rewrite_package overrides p).2 = none) ∧
    (∀ p m, (rewrite_package overrides p).2 = some m →
      m = "Package " ++ (p.name ++ "-" ++ p.version) ++ " is missing a repository" ∨
      m = "Package " ++ (p.name ++ "-" ++ p.version) ++ " is missing a license") := by
  have hfold := rewrite_packages_fold overrides packages ([], [], false)
  rw [rewrite_packages, hfold]
  refine ⟨by simp, by simp, ?_, ?_⟩
  · simp only [Bool.false_or, List.any_eq_false]
    constructor
    · intro h p hp
      have h2 := h p hp
      simpa using h2
    · intro h p hp
      simp [h p hp]
  · intro p m hm
    simp only [rewrite_package, rewrite_package_body] at hm
    rcases hsrc : (apply_override overrides p).source with _ | source
    · simp only [hsrc] at hm
      cases hm
    · simp only [hsrc] at hm
      rcases hfix : fix_repository (apply_override overrides p) source with _ | fixed
      · simp only [hfix] at hm
        injection hm with hm
        exact Or.inl hm.symm
      · simp only [hfix] at hm
        by_cases hlic : fixed.license = none
        · rw [if_pos hlic] at hm
          simp only at hm
          injection hm with hm
          exact Or.inr hm.symm
        · rw [if_neg hlic] at hm
          cases hm

/-- Concrete override table for the C7 witness. -/
def ovW : Overrides := [("foo-1.0", ⟨some "MIT", none⟩)]

/-- Package fixed up by an override for the C7 witness. -/
def pkgFoo : Package :=
  { id := 1, name := "foo", version := "1.0", license := none,
    repository := some "https://r/foo.git", homepage := none,
    source := some "registry+https://x", metadata_copyright := none }

/-- Package with no derivable repository for the C7 witness. -/
def pkgBar : Package :=
  { id := 2, name := "bar", version := "2.0", license := some "MIT",
    repository := none, homepage := none,
    source := some "registry+https://x", metadata_copyright := none }

/-- Witness for C7: on a two-package list where one package fails, both
packages are processed, the single diagnostic names the failing package by
name and version, and the error flag is set. -/
theorem spec_c7_witness :
    ((rewrite_packages ovW [pkgFoo, pkgBar]).1 =
      [pkgFoo, pkgBar].map (fun p => (rewrite_package ovW p).1)) ∧
    (rewrite_packages ovW [pkgFoo, pkgBar]).2.1 =
      ["Package bar-2.0 is missing a repository"] ∧
    (rewrite_packages ovW [pkgFoo, pkgBar]).2.2 = true :=
  ⟨(spec_c7_normalization_batch ovW [pkgFoo, pkgBar]).1, by decide, by decide⟩

/-- C6: the filtered package list (graph-filter ids looked up in the package
table) never contains a local package (one with no source); and the graph
walk itself still follows a `Normal` edge owned by any node, local or not:
the edge target always enters the result set. -/
theorem spec_c6_local_packages_excluded :
    (∀ (package_ids : List Nat) (packages : List Package) (out : List Package),
      lookup_deps package_ids packages = some out →
      ∀ p ∈ out, p.source.isSome = true) ∧
    (∀ (deps : Nat → List NodeDep) (fuel node : Nat) (acc : Finset Nat)
      (d : NodeDep), d ∈ deps node → is_normal_dep d.dep_kinds = true →
      d.pkg ∈ filter_node_deps_rec deps (fuel + 1) node acc) := by
  constructor
  · intro ids pkgs out h p hp
    rw [lookup_deps] at h
    rcases hfound : ids.mapM (fun i => pkgs.find? (fun q => q.id == i)) with _ | found
    · rw [hfound] at h
      cases h
    · rw [hfound] at h
      simp only [Option.map_some'] at h
      injection h with h
      rw [← h] at hp
      exact (List.mem_filter.mp hp).2
  · intro deps fuel node acc d hd hn
    rw [fnd_succ]
    refine foldl_mem_of_mem (fnd_step_mono deps fuel) ?_ (deps node) acc hd
    intro a
    unfold fnd_step
    rw [if_pos hn]
    exact fnd_mono deps fuel d.pkg _ (Finset.mem_insert_self _ _)

/-- A local (source-less) workspace package for the C6 witness. -/
def pkgLocal : Package :=
  { id := 0, name := "ws", version := "0.1", license := none,
    repository := none, homepage := none, source := none,
    metadata_copyright := none }

/-- A remote package for the C6 witness. -/
def pkgRemote : Package :=
  { id := 1, name := "dep", version := "1.0", license := some "MIT",
    repository := some "https://r/dep", homepage := none,
    source := some "registry+https://x", metadata_copyright := none }

/-- Witness for C6: looking up ids 0 and 1 keeps only the sourced package, and
the `Normal` edge owned by node 0 (the local package's node) is still
followed, putting its target 1 into the filter output. -/
theorem spec_c6_witness :
    (lookup_deps [0, 1] [pkgLocal, pkgRemote] = some [pkgRemote]) ∧
    pkgRemote.source.isSome = true ∧
    (⟨1, [⟨DependencyKind.normal⟩]⟩ : NodeDep) ∈ depsOne 0 ∧
    (1 : Nat) ∈ filter_node_deps_rec depsOne (0 + 1) 0 ∅ :=
  ⟨by decide,
   (spec_c6_local_packages_excluded).1 [0, 1] [pkgLocal, pkgRemote] [pkgRemote]
     (by decide) pkgRemote (by decide),
   by decide,
   (spec_c6_local_packages_excluded).2 depsOne 0 0 ∅ ⟨1, [⟨DependencyKind.normal⟩]⟩
     (by decide) (by decide)⟩

/-!
The drift checker, `Commands::check`.  The persisted CSV content is modelled
as the `HashSet<Record>` it is loaded into; the printed diagnostics are
modelled by returning the list of fresh records reported "missing or
changed" (in processing order), the set of records reported "Extraneous",
and the success flag (`Ok` versus `bail!`).
-/

/-- The first loop of `Commands::check`: try to remove each fresh record from
the persisted set, collecting the records reported "missing or changed". -/
def check_fold (records : List Record) (current : Finset Record) :
    Finset Record × List Record :=
  records.foldl
    (fun st record =>
      if record ∈ st.1 then (st.1.erase record, st.2)
      else (st.1, st.2 ++ [record]))
    (current, [])

/-- `Commands::check` from the source.  Note the guard `!errors &&
!current.is_empty()`: the extraneous loop runs only when the first loop
reported nothing. -/
def commands_check (records : List Record) (current : Finset Record) :
    List Record × Finset Record × Bool :=
  if (check_fold records current).2 = [] then
    if (check_fold records current).1 = ∅ then
      ((check_fold records current).2, ∅, true)
    else ((check_fold records current).2, (check_fold records current).1, false)
  else ((check_fold records current).2, ∅, false)

theorem check_fold_eq :
    ∀ (records : List Record), records.Nodup →
    ∀ (current : Finset Record) (acc : List Record),
      records.foldl
        (fun st record =>
          if record ∈ st.1 then (st.1.erase record, st.2)
          else (st.1, st.2 ++ [record])) (current, acc) =
      (current \ records.toFinset,
       acc ++ records.filter (fun r => decide (r ∉ current))) := by
  intro records
  induction records with
  | nil => intro _ current acc; simp
  | cons r rs ih =>
    intro hnd current acc
    have hr : r ∉ rs := (List.nodup_cons.mp hnd).1
    have hnd' : rs.Nodup := (List.nodup_cons.mp hnd).2
    simp only [List.foldl_cons]
    by_cases hmem : r ∈ current
    · rw [if_pos (show r ∈ (current, acc).1 from hmem)]
      rw [ih hnd' (current.erase r) acc]
      have h1 : current.erase r \ rs.toFinset = current \ (r :: rs).toFinset := by
        ext x
        simp only [Finset.mem_sdiff, Finset.mem_erase, List.toFinset_cons,
          Finset.mem_insert]
        tauto
      have h2 : rs.filter (fun x => decide (x ∉ current.erase r)) =
          rs.filter (fun x => decide (x ∉ current)) := by
        apply List.filter_congr
        intro x hx
        have hxr : x ≠ r := fun h => hr (h ▸ hx)
        simp [Finset.mem_erase, hxr]
      have h3 : (r :: rs).filter (fun x => decide (x ∉ current)) =
          rs.filter (fun x => decide (x ∉ current)) := by
        simp [List.filter_cons, hmem]
      rw [h1, h2, h3]
    · rw [if_neg (show ¬ r ∈ (current, acc).1 from hmem)]
      rw [ih hnd' current (acc ++ [r])]
      have h1 : current \ rs.toFinset = current \ (r :: rs).toFinset := by
        ext x
        simp only [Finset.mem_sdiff, List.toFinset_cons, Finset.mem_insert]
        constructor
        · rintro ⟨hx, hxs⟩
          exact ⟨hx, fun h => h.elim (fun he => hmem (he ▸ hx)) hxs⟩
        · rintro ⟨hx, hxs⟩
          exact ⟨hx, fun h => hxs (Or.inr h)⟩
      have h2 : (r :: rs).filter (fun x => decide (x ∉ current)) =
          r :: rs.filter (fun x => decide (x ∉ current)) := by
        simp [List.filter_cons, hmem]
      rw [h1, h2]
      simp

/-- Fresh record used in the drift-checker theorems. -/
def recA : Record := ⟨"a", "o", "l", "c"⟩

/-- Persisted-only record used in the drift-checker theorems. -/
def recB : Record := ⟨"b", "o", "l", "c"⟩

/-- C4 counterexample: with fresh list `[recA]` and persisted set `{recB}`,
one "missing or changed" mismatch is reported, `recB` remains unconsumed in
the persisted set, yet no "extraneous" diagnostic is reported for it (the
claim demands one per unconsumed record); the check still fails. -/
theorem spec_c4_counterexample :
    (commands_check [recA] {recB}).1 = [recA] ∧
    (check_fold [recA] {recB}).1 = {recB} ∧
    (commands_check [recA] {recB}).2.1 = ∅ ∧
    ¬ ((commands_check [recA] {recB}).2.1 = (check_fold [recA] {recB}).1) ∧
    (commands_check [recA] {recB}).2.2 = false := by
  decide

/-- C4 (amended): one "missing or changed" diagnostic per fresh record absent
from the persisted set; the unconsumed remainder is reported as "extraneous"
only when no "missing or changed" diagnostic occurred (otherwise the
extraneous records go unreported); the check succeeds iff zero mismatches
were reported in total. -/
theorem spec_c4_check_amended (records : List Record) (current : Finset Record)
    (hnd : records.Nodup) :
    ((commands_check records current).1 =
      records.filter (fun r => decide (r ∉ current))) ∧
    ((commands_check records current).2.1 =
      if (commands_check records current).1 = [] then
        current \ records.toFinset
      else ∅) ∧
    ((commands_check records current).2.2 = true ↔
      (commands_check records current).1 = [] ∧
      (commands_check records current).2.1 = ∅) := by
  have hfold := check_fold_eq records hnd current []
  have hcf : check_fold records current =
      (current \ records.toFinset,
       records.filter (fun r => decide (r ∉ current))) := by
    rw [check_fold, hfold]
    simp
  unfold commands_check
  rw [hcf]
  dsimp only
  by_cases hm : records.filter (fun r => decide (r ∉ current)) = []
  · by_cases hc : current \ records.toFinset = ∅
    · rw [if_pos hm, if_pos hc]
      refine ⟨rfl, ?_, ?_⟩
      · dsimp only
        rw [hm, if_pos rfl]
        exact hc.symm
      · dsimp only
        constructor
        · intro _
          exact ⟨hm, rfl⟩
        · intro _
          rfl
    · rw [if_pos hm, if_neg hc]
      refine ⟨rfl, ?_, ?_⟩
      · dsimp only
        rw [hm, if_pos rfl]
      · dsimp only
        constructor
        · intro h
          exact Bool.noConfusion h
        · rintro ⟨-, h2⟩
          exact absurd h2 hc
  · rw [if_neg hm]
    refine ⟨rfl, ?_, ?_⟩
    · dsimp only
      rw [if_neg hm]
    · dsimp only
      constructor
      · intro h
        exact Bool.noConfusion h
      · rintro ⟨h1, -⟩
        exact absurd h1 hm

/-- Witness for C4's amended theorem at fresh list `[recA]` and persisted set
`{recA, recB}`. -/
theorem spec_c4_witness :
    ([recA] : List Record).Nodup ∧
    (((commands_check [recA] {recA, recB}).1 =
      [recA].filter (fun r => decide (r ∉ ({recA, recB} : Finset Record)))) ∧
    ((commands_check [recA] {recA, recB}).2.1 =
      if (commands_check [recA] {recA, recB}).1 = [] then
        ({recA, recB} : Finset Record) \ ([recA] : List Record).toFinset
      else ∅) ∧
    ((commands_check [recA] {recA, recB}).2.2 = true ↔
      (commands_check [recA] {recA, recB}).1 = [] ∧
      (commands_check [recA] {recA, recB}).2.1 = ∅)) :=
  ⟨by decide, spec_c4_check_amended [recA] {recA, recB} (by decide)⟩

/-!
The record reducer: `package_to_record`, `collect_record_sets`,
`reduce_names`, and `build_records`.  The `RecordSet` hash map is modelled as
an association list in insertion order; the `HashSet<PackageName>` values are
modelled as duplicate-free lists in insertion order.
-/

/-- Rust `str::replace('/', " OR ")` on the underlying characters. -/
def replace_slash : List Char → List Char
  | [] => []
  | c :: rest => (if c = '/' then " OR ".data else [c]) ++ replace_slash rest

/-- Rust `str::rsplit_once`: split around the last occurrence of `c`. -/
def rsplit_once (c : Char) : List Char → Option (List Char × List Char)
  | [] => none
  | ch :: rest =>
    match rsplit_once c rest with
    | some (before, post) => some (ch :: before, post)
    | none => if ch = c then some ([], rest) else none

/-- `package_name` from the source: `PackageName::new(..).expect(..)`.  Every
reachable call passes a string equal to an existing (hence valid) component
name, so validation always succeeds and the function is the identity. -/
def package_name (name : String) : String := name

/-- `package_to_record` from the source; `none` models the panics on a
missing repository, license, or copyright slot (all fixed up earlier in the
pipeline). -/
def package_to_record (package : Package) : Option Record :=
  match package.repository, package.license, package.metadata_copyright with
  | some repo, some license, some copyright =>
    some ⟨package.name, repo, ⟨replace_slash license.data⟩, copyright⟩
  | _, _, _ => none

/-- `intermediate.entry(record).or_default().insert(name)` from
`collect_record_sets`: the key is the record exactly as passed (component
name included). -/
def insert_group : List (Record × List String) → Record → String →
    List (Record × List String)
  | [], record, name => [(record, [name])]
  | (key, names) :: rest, record, name =>
    if key = record then
      (key, if name ∈ names then names else names ++ [name]) :: rest
    else (key, names) :: insert_group rest record name

/-- `collect_record_sets` from the source. -/
def collect_record_sets (records : List Record) : List (Record × List String) :=
  records.foldl (fun acc record => insert_group acc record record.component) []

/-- The heuristic cascade inside `reduce_names`: exact match of a component
name against the origin's last path segment, then the segment with a leading
`"rust-"` stripped, then with a trailing `"-rs"` stripped; `none` when no
rule fires (or the origin has no `'/'`). -/
def try_reduce (record : Record) (names : List String) : Option Record :=
  match rsplit_once '/' record.origin.data with
  | none => none
  | some (_, suffix) =>
    if (⟨suffix⟩ : String) ∈ names then
      some { record with component := package_name ⟨suffix⟩ }
    else
      match (match drop_pre "rust-".data suffix with
        | some n => if (⟨n⟩ : String) ∈ names then some n else none
        | none => none) with
      | some n => some { record with component := package_name ⟨n⟩ }
      | none =>
        match drop_sfx "-rs".data suffix with
        | some n =>
          if (⟨n⟩ : String) ∈ names then
            some { record with component := package_name ⟨n⟩ }
          else none
        | none => none

/-- `reduce_names` from the source. -/
def reduce_names (record : Record) (names : List String) : List Record :=
  if names.length = 1 then
    [{ record with component := names.headI }]
  else
    match try_reduce record names with
    | some r => [r]
    | none => names.map (fun component => { record with component := component })

/-- First of two candidate records sharing origin, license and copyright. -/
def recFoo : Record := ⟨"foo", "https://g/owner/foo", "MIT", "c"⟩

/-- Second candidate record, differing from `recFoo` only in component name. -/
def recFooRs : Record := ⟨"foo-rs", "https://g/owner/foo", "MIT", "c"⟩

/-- C2 evaluation: two candidate records that agree on origin, license and
copyright but differ in component name land in two distinct groups, each
keyed by the full record with its component name still present — not in one
group keyed by a component-less record. -/
theorem spec_c2_grouping_keeps_component :
    collect_record_sets [recFoo, recFooRs] =
      [(recFoo, ["foo"]), (recFooRs, ["foo-rs"])] ∧
    (collect_record_sets [recFoo, recFooRs]).length = 2 ∧
    ∀ g ∈ collect_record_sets [recFoo, recFooRs], g.1.component ≠ "" := by
  decide

/-- Record whose origin's last path segment is `"foo"`, used in C5. -/
def recHint : Record := ⟨"x", "https://github.com/owner/foo", "MIT", "c"⟩

/-- C5: for the group `{"foo", "foo-rs"}` with origin ending in `/foo` the
reducer emits exactly one record named `"foo"`; and the heuristics fire in
the fixed order exact-match, then `"rust-"`-stripped, then `"-rs"`-stripped,
the first match winning. -/
theorem spec_c5_name_reduction_order :
    (reduce_names recHint ["foo", "foo-rs"] =
      [{ recHint with component := "foo" }]) ∧
    (∀ (record : Record) (names : List String) (before suffix : List Char),
      names.length ≠ 1 →
      rsplit_once '/' record.origin.data = some (before, suffix) →
      (⟨suffix⟩ : String) ∈ names →
      reduce_names record names =
        [{ record with component := (⟨suffix⟩ : String) }]) ∧
    (∀ (record : Record) (names : List String) (before suffix n : List Char),
      names.length ≠ 1 →
      rsplit_once '/' record.origin.data = some (before, suffix) →
      (⟨suffix⟩ : String) ∉ names →
      drop_pre "rust-".data suffix = some n →
      (⟨n⟩ : String) ∈ names →
      reduce_names record names =
        [{ record with component := (⟨n⟩ : String) }]) ∧
    (∀ (record : Record) (names : List String) (before suffix n : List Char),
      names.length ≠ 1 →
      rsplit_once '/' record.origin.data = some (before, suffix) →
      (⟨suffix⟩ : String) ∉ names →
      (∀ m, drop_pre "rust-".data suffix = some m → (⟨m⟩ : String) ∉ names) →
      drop_sfx "-rs".data suffix = some n →
      (⟨n⟩ : String) ∈ names →
      reduce_names record names =
        [{ record with component := (⟨n⟩ : String) }]) := by
  refine ⟨by decide, ?_, ?_, ?_⟩
  · intro record names before suffix hlen hsplit hmem
    rw [reduce_names, if_neg hlen]
    simp only [try_reduce, hsplit, if_pos hmem, package_name]
  · intro record names before suffix n hlen hsplit hnmem hdp hmem
    rw [reduce_names, if_neg hlen]
    simp only [try_reduce, hsplit, if_neg hnmem, hdp, if_pos hmem, package_name]
  · intro record names before suffix n hlen hsplit hnmem hnopre hsfx hmem
    rw [reduce_names, if_neg hlen]
    rcases hdp : drop_pre "rust-".data suffix with _ | m
    · simp only [try_reduce, hsplit, if_neg hnmem, hdp, hsfx, if_pos hmem,
        package_name]
    · simp only [try_reduce, hsplit, if_neg hnmem, hdp, if_neg (hnopre m hdp),
        hsfx, if_pos hmem, package_name]

/-- Witness for C5's exact-match rule at a concrete group and origin. -/
theorem spec_c5_witness :
    (["alpha", "beta"] : List String).length ≠ 1 ∧
    rsplit_once '/' ("https://g/alpha" : String).data =
      some ("https://g".data, "alpha".data) ∧
    ("alpha" : String) ∈ (["alpha", "beta"] : List String) ∧
    reduce_names ⟨"z", "https://g/alpha", "MIT", "c"⟩ ["alpha", "beta"] =
      [{ (⟨"z", "https://g/alpha", "MIT", "c"⟩ : Record) with
          component := ("alpha" : String) }] :=
  ⟨by decide, by decide, by decide,
   (spec_c5_name_reduction_order).2.1 ⟨"z", "https://g/alpha", "MIT", "c"⟩
     ["alpha", "beta"] "https://g".data "alpha".data (by decide) (by decide)
     (by decide)⟩

/-!
The derived `Ord` on `Record`: lexicographic by component, origin, license,
copyright, each field compared as its character sequence (UTF-8 byte order
and codepoint order agree).  `Vec::sort` is a stable sort by this order;
since the order is antisymmetric on records, every sort produces the same
list, and it is modelled by insertion sort.
-/

/-- Lexicographic `≤` on character lists. -/
def lex_le : List Char → List Char → Bool
  | [], _ => true
  | _ :: _, [] => false
  | a :: as, b :: bs => if a < b then true else if a = b then lex_le as bs else false

theorem lex_le_refl : ∀ l, lex_le l l = true := by
  intro l
  induction l with
  | nil => rfl
  | cons a as ih =>
    simp only [lex_le]
    simpa using ih

theorem lex_le_total : ∀ a b, lex_le a b = true ∨ lex_le b a = true := by
  intro a
  induction a with
  | nil => intro b; exact Or.inl rfl
  | cons x xs ih =>
    intro b
    cases b with
    | nil => exact Or.inr rfl
    | cons y ys =>
      simp only [lex_le]
      rcases lt_trichotomy x y with h | h | h
      · rw [if_pos h]
        exact Or.inl rfl
      · subst h
        rw [if_neg (lt_irrefl x), if_pos rfl, if_neg (lt_irrefl x), if_pos rfl]
        exact ih ys
      · rw [if_pos h]
        exact Or.inr rfl

theorem lex_le_antisymm : ∀ a b, lex_le a b = true → lex_le b a = true → a = b := by
  intro a
  induction a with
  | nil =>
    intro b h1 h2
    cases b with
    | nil => rfl
    | cons y ys => exact absurd h2 (by simp [lex_le])
  | cons x xs ih =>
    intro b h1 h2
    cases b with
    | nil => exact absurd h1 (by simp [lex_le])
    | cons y ys =>
      simp only [lex_le] at h1 h2
      rcases lt_trichotomy x y with h | h | h
      · rw [if_neg (asymm h), if_neg (by intro he; rw [he] at h; exact lt_irrefl x h)] at h2
        exact absurd h2 (by simp)
      · subst h
        rw [if_neg (lt_irrefl x), if_pos rfl] at h1 h2
        rw [ih ys h1 h2]
      · rw [if_neg (asymm h), if_neg (by intro he; subst he; exact lt_irrefl x h)] at h1
        exact absurd h1 (by simp)

theorem lex_le_trans : ∀ a b c, lex_le a b = true → lex_le b c = true →
    lex_le a c = true := by
  intro a
  induction a with
  | nil => intro b c _ _; rfl
  | cons x xs ih =>
    intro b c h1 h2
    cases b with
    | nil => exact absurd h1 (by simp [lex_le])
    | cons y ys =>
      cases c with
      | nil => exact absurd h2 (by simp [lex_le])
      | cons z zs =>
        simp only [lex_le] at h1 h2 ⊢
        rcases lt_trichotomy x y with hxy | hxy | hxy
        · rcases lt_trichotomy y z with hyz | hyz | hyz
          · rw [if_pos (lt_trans hxy hyz)]
          · subst hyz
            rw [if_pos hxy]
          · rw [if_neg (asymm hyz),
              if_neg (by intro he; subst he; exact lt_irrefl y hyz)] at h2
            exact absurd h2 (by simp)
        · subst hxy
          rw [if_neg (lt_irrefl x), if_pos rfl] at h1
          rcases lt_trichotomy x z with hxz | hxz | hxz
          · rw [if_pos hxz]
          · subst hxz
            rw [if_neg (lt_irrefl x), if_pos rfl] at h2 ⊢
            exact ih ys zs h1 h2
          · rw [if_neg (asymm hxz),
              if_neg (by intro he; subst he; exact lt_irrefl x hxz)] at h2
            exact absurd h2 (by simp)
        · rw [if_neg (asymm hxy),
            if_neg (by intro he; subst he; exact lt_irrefl x hxy)] at h1
          exact absurd h1 (by simp)

/-- Lexicographic comparison over a list of fields: move past equal fields,
decide at the first unequal one. -/
def fields_le : List (List Char) → List (List Char) → Bool
  | [], _ => true
  | _ :: _, [] => true
  | f :: fs, g :: gs => if f = g then fields_le fs gs else lex_le f g

theorem fields_le_total : ∀ fs gs, fields_le fs gs = true ∨ fields_le gs fs = true := by
  intro fs
  induction fs with
  | nil => intro gs; exact Or.inl rfl
  | cons f fs ih =>
    intro gs
    cases gs with
    | nil => exact Or.inl rfl
    | cons g gs =>
      simp only [fields_le]
      by_cases hfg : f = g
      · subst hfg
        rw [if_pos rfl, if_pos rfl]
        exact ih gs
      · rw [if_neg hfg, if_neg (fun h => hfg h.symm)]
        exact lex_le_total f g

theorem fields_le_trans : ∀ fs gs hs, fs.length = gs.length →
    gs.length = hs.length → fields_le fs gs = true → fields_le gs hs = true →
    fields_le fs hs = true := by
  intro fs
  induction fs with
  | nil => intro gs hs _ _ _ _; rfl
  | cons f fs ih =>
    intro gs hs hl1 hl2 h1 h2
    cases gs with
    | nil => exact absurd hl1 (by simp)
    | cons g gs =>
      cases hs with
      | nil => exact absurd hl2 (by simp)
      | cons h hs =>
        simp only [List.length_cons, Nat.add_right_cancel_iff] at hl1 hl2
        simp only [fields_le] at h1 h2 ⊢
        by_cases hfg : f = g
        · subst hfg
          rw [if_pos rfl] at h1
          by_cases hgh : f = h
          · subst hgh
            rw [if_pos rfl] at h2 ⊢
            exact ih gs hs hl1 hl2 h1 h2
          · rw [if_neg hgh] at h2 ⊢
            exact h2
        · rw [if_neg hfg] at h1
          by_cases hgh : g = h
          · subst hgh
            rw [if_neg hfg]
            exact h1
          · rw [if_neg hgh] at h2
            by_cases hfh : f = h
            · subst hfh
              exact absurd (lex_le_antisymm f g h1 h2) hfg
            · rw [if_neg hfh]
              exact lex_le_trans f g h h1 h2

/-- The derived `Ord`'s `≤` on records, fields in declaration order. -/
def record_le (a b : Record) : Bool :=
  fields_le [a.component.data, a.origin.data, a.license.data, a.copyright.data]
    [b.component.data, b.origin.data, b.license.data, b.copyright.data]

theorem record_le_total (a b : Record) :
    record_le a b = true ∨ record_le b a = true :=
  fields_le_total _ _

theorem record_le_trans (a b c : Record) (h1 : record_le a b = true)
    (h2 : record_le b c = true) : record_le a c = true :=
  fields_le_trans _ _ _ (by simp) (by simp) h1 h2

theorem record_le_comp {a b : Record} (h : record_le a b = true) :
    lex_le a.component.data b.component.data = true := by
  rw [record_le] at h
  simp only [fields_le] at h
  by_cases hc : a.component.data = b.component.data
  · rw [hc]
    exact lex_le_refl _
  · rw [if_neg hc] at h
    exact h

/-- `result.sort()` from `build_records`: sort by the record order. -/
def sort_records (records : List Record) : List Record :=
  records.insertionSort (fun a b => record_le a b = true)

/-- `build_records` from the source: synthesize candidate records, group
them, rehydrate/reduce the groups, and sort.  `none` models the panics of
`package_to_record`. -/
def build_records (packages : List Package) : Option (List Record) :=
  (packages.mapM package_to_record).map
    (fun records =>
      sort_records
        ((collect_record_sets records).foldr
          (fun g acc => reduce_names g.1 g.2 ++ acc) []))

theorem insert_group_names :
    ∀ (acc : List (Record × List String)) (record : Record),
      (∀ g ∈ acc, g.2 = [g.1.component]) →
      ∀ g ∈ insert_group acc record record.component, g.2 = [g.1.component] := by
  intro acc
  induction acc with
  | nil =>
    intro record _ g hg
    simp only [insert_group, List.mem_singleton] at hg
    subst hg
    rfl
  | cons e rest ih =>
    intro record hinv g hg
    obtain ⟨key, names⟩ := e
    have hkeynames : names = [key.component] :=
      hinv (key, names) (List.mem_cons_self _ _)
    have hrest : ∀ g ∈ rest, g.2 = [g.1.component] :=
      fun g hg => hinv g (List.mem_cons_of_mem _ hg)
    simp only [insert_group] at hg
    by_cases hk : key = record
    · rw [if_pos hk] at hg
      rcases List.mem_cons.mp hg with h | h
      · subst h
        rw [hkeynames, hk]
        simp
      · exact hrest g h
    · rw [if_neg hk] at hg
      rcases List.mem_cons.mp hg with h | h
      · subst h
        exact hkeynames
      · exact ih record hrest g h

theorem insert_group_keys_sub :
    ∀ (acc : List (Record × List String)) (record : Record) (name : String)
      (x : Record), x ∈ (insert_group acc record name).map (fun g => g.1) →
      x ∈ acc.map (fun g => g.1) ∨ x = record := by
  intro acc
  induction acc with
  | nil =>
    intro record name x hx
    simp only [insert_group, List.map_cons, List.map_nil, List.mem_singleton] at hx
    exact Or.inr hx
  | cons e rest ih =>
    intro record name x hx
    obtain ⟨key, names⟩ := e
    simp only [insert_group] at hx
    by_cases hk : key = record
    · rw [if_pos hk] at hx
      simp only [List.map_cons, List.mem_cons] at hx
      rcases hx with h | h
      · exact Or.inl (by simp only [List.map_cons, List.mem_cons]; exact Or.inl h)
      · exact Or.inl (by simp only [List.map_cons, List.mem_cons]; exact Or.inr h)
    · rw [if_neg hk] at hx
      simp only [List.map_cons, List.mem_cons] at hx
      rcases hx with h | h
      · exact Or.inl (by simp only [List.map_cons, List.mem_cons]; exact Or.inl h)
      · rcases ih record name x h with h2 | h2
        · exact Or.inl
            (by simp only [List.map_cons, List.mem_cons]; exact Or.inr h2)
        · exact Or.inr h2

theorem insert_group_keys_nodup :
    ∀ (acc : List (Record × List String)) (record : Record) (name : String),
      (acc.map (fun g => g.1)).Nodup →
      ((insert_group acc record name).map (fun g => g.1)).Nodup := by
  intro acc
  induction acc with
  | nil =>
    intro record name _
    simp [insert_group]
  | cons e rest ih =>
    intro record name hnd
    obtain ⟨key, names⟩ := e
    simp only [List.map_cons, List.nodup_cons] at hnd
    obtain ⟨hknotin, hrestnd⟩ := hnd
    simp only [insert_group]
    by_cases hk : key = record
    · rw [if_pos hk]
      simp only [List.map_cons, List.nodup_cons]
      exact ⟨hknotin, hrestnd⟩
    · rw [if_neg hk]
      simp only [List.map_cons, List.nodup_cons]
      refine ⟨?_, ih record name hrestnd⟩
      intro hmem
      rcases insert_group_keys_sub rest record name key hmem with h | h
      · exact hknotin h
      · exact hk h

theorem collect_aux :
    ∀ (records : List Record) (acc : List (Record × List String)),
      (∀ g ∈ acc, g.2 = [g.1.component]) → (acc.map (fun g => g.1)).Nodup →
      (∀ g ∈ records.foldl
          (fun acc record => insert_group acc record record.component) acc,
        g.2 = [g.1.component]) ∧
      ((records.foldl
          (fun acc record => insert_group acc record record.component) acc).map
        (fun g => g.1)).Nodup := by
  intro records
  induction records with
  | nil => intro acc h1 h2; exact ⟨h1, h2⟩
  | cons r rs ih =>
    intro acc h1 h2
    simp only [List.foldl_cons]
    exact ih (insert_group acc r r.component)
      (insert_group_names acc r h1)
      (insert_group_keys_nodup acc r r.component h2)

theorem collect_record_sets_inv (records : List Record) :
    (∀ g ∈ collect_record_sets records, g.2 = [g.1.component]) ∧
    ((collect_record_sets records).map (fun g => g.1)).Nodup :=
  collect_aux records [] (by simp) (by simp)

theorem reduce_names_single (r : Record) : reduce_names r [r.component] = [r] := by
  rfl

theorem flat_groups_eq_keys :
    ∀ (l : List (Record × List String)),
      (∀ g ∈ l, g.2 = [g.1.component]) →
      l.foldr (fun g acc => reduce_names g.1 g.2 ++ acc) [] =
        l.map (fun g => g.1) := by
  intro l
  induction l with
  | nil => intro _; rfl
  | cons g l ih =>
    intro hinv
    simp only [List.foldr_cons, List.map_cons]
    rw [hinv g (List.mem_cons_self _ _), reduce_names_single,
      ih (fun g' hg' => hinv g' (List.mem_cons_of_mem _ hg'))]
    rfl

/-- C8: whenever `build_records` produces a record list, it contains no two
records identical in all four fields and is sorted by component name (in the
character order underlying the record order). -/
theorem spec_c8_output_nodup_sorted (packages : List Package)
    (recs : List Record) (h : build_records packages = some recs) :
    recs.Nodup ∧
    recs.Sorted (fun a b => lex_le a.component.data b.component.data = true) := by
  rw [build_records] at h
  rcases hmapm : packages.mapM package_to_record with _ | records
  · rw [hmapm] at h
    cases h
  · rw [hmapm] at h
    simp only [Option.map_some'] at h
    injection h with h
    subst h
    have hinv := collect_record_sets_inv records
    rw [sort_records, flat_groups_eq_keys _ hinv.1]
    haveI instTot : IsTotal Record (fun a b => record_le a b = true) :=
      ⟨record_le_total⟩
    haveI instTrans : IsTrans Record (fun a b => record_le a b = true) :=
      ⟨record_le_trans⟩
    constructor
    · exact ((List.perm_insertionSort _ _).symm).nodup hinv.2
    · have hs := List.sorted_insertionSort (fun a b => record_le a b = true)
        ((collect_record_sets records).map (fun g => g.1))
      exact hs.imp (fun hab => record_le_comp hab)

/-- First input package for the C8 witness (composite license). -/
def pW1 : Package :=
  { id := 1, name := "beta", version := "1.0", license := some "MIT/Apache-2.0",
    repository := some "https://r/beta", homepage := none, source := some "reg",
    metadata_copyright := some "cb" }

/-- Second input package for the C8 witness. -/
def pW2 : Package :=
  { id := 2, name := "alpha", version := "1.0", license := some "MIT",
    repository := some "https://r/alpha", homepage := none, source := some "reg",
    metadata_copyright := some "ca" }

/-- First output record of the C8 witness. -/
def recW1 : Record := ⟨"alpha", "https://r/alpha", "MIT", "ca"⟩

/-- Second output record of the C8 witness. -/
def recW2 : Record := ⟨"beta", "https://r/beta", "MIT OR Apache-2.0", "cb"⟩

/-- Witness for C8 on a concrete two-package input (out of input order, with
a composite license rewritten to `" OR "`). -/
theorem spec_c8_witness :
    build_records [pW1, pW2] = some [recW1, recW2] ∧
    (([recW1, recW2] : List Record).Nodup ∧
      ([recW1, recW2] : List Record).Sorted
        (fun a b => lex_le a.component.data b.component.data = true)) :=
  ⟨by decide, spec_c8_output_nodup_sorted [pW1, pW2] [recW1, recW2] (by decide)⟩

/-!
`Config::load` and its use in `build_everything`.  The filesystem read is
modelled as an `Except` input (`notFound` versus any other error), and the
external TOML parser as a function argument, both matching the shape of the
`fs::read_to_string` and `toml::from_str` results the code branches on.
-/

inductive ReadErr where
  | notFound
  | otherErr (msg : String)
deriving DecidableEq

structure Config where
  overrides : Overrides

/-- `Config::default()`: an empty override table. -/
def config_default : Config := ⟨[]⟩

/-- `Config::load` from the source: a missing file yields `Ok(None)`; any
other read error, or a parse error on an existing file, is a failure with
context. -/
def Config.load (read_result : Except ReadErr String)
    (parse : String → Except String (Option Config)) :
    Except String (Option Config) :=
  match read_result with
  | .ok text =>
    match parse text with
    | .ok config => .ok config
    | .error e => .error ("Could not parse " ++ e)
  | .error .notFound => .ok none
  | .error (.otherErr m) => .error ("Could not load from " ++ m)

/-- The config step of `build_everything`:
`Config::load(filename)?.unwrap_or_default()`. -/
def load_config (read_result : Except ReadErr String)
    (parse : String → Except String (Option Config)) : Except String Config :=
  (Config.load read_result parse).map (fun c => c.getD config_default)

/-- C10: a missing override file loads as no configuration and the run
proceeds with the default (empty) override table; the load fails exactly for
a file that exists but cannot be read or whose content fails to parse. -/
theorem spec_c10_config_missing_file
    (parse : String → Except String (Option Config)) :
    (Config.load (.error .notFound) parse = .ok none) ∧
    (load_config (.error .notFound) parse = .ok config_default) ∧
    (∀ key, ov_get config_default.overrides key = none) ∧
    (∀ result, (∃ e, Config.load result parse = .error e) ↔
      (∃ m, result = .error (.otherErr m)) ∨
      (∃ text e, result = .ok text ∧ parse text = .error e)) := by
  refine ⟨rfl, rfl, fun key => rfl, ?_⟩
  intro result
  constructor
  · rintro ⟨e, he⟩
    match result with
    | .ok text =>
      cases hp : parse text with
      | ok c =>
        rw [Config.load, hp] at he
        cases he
      | error err => exact Or.inr ⟨text, err, rfl, hp⟩
    | .error .notFound =>
      rw [Config.load] at he
      cases he
    | .error (.otherErr m) => exact Or.inl ⟨m, rfl⟩
  · rintro (⟨m, rfl⟩ | ⟨text, e, rfl, hp⟩)
    · exact ⟨"Could not load from " ++ m, rfl⟩
    · exact ⟨"Could not parse " ++ e, by rw [Config.load, hp]⟩

/-- Witness for C10 with a trivial parser. -/
theorem spec_c10_witness :
    Config.load (Except.error ReadErr.notFound) (fun _ => Except.ok none) =
      Except.ok none ∧
    load_config (Except.error ReadErr.notFound) (fun _ => Except.ok none) =
      Except.ok config_default :=
  ⟨(spec_c10_config_missing_file (fun _ => Except.ok none)).1,
   (spec_c10_config_missing_file (fun _ => Except.ok none)).2.1⟩
